import Mathlib

/-!
Verification of the picturebox animation-timeline engine
(`picturebox/actor.py`): the timeline/phase state machine in `Actor.draw`,
the keyword-parameter resolution mechanism (`Actor.__init__`,
`Actor._set_kwargs`), the default stage handlers (`Actor._enter`,
`Actor._leave`), and the render driver `perform`.

Frames and breakpoints are modelled as rationals (Python numbers), the
heterogeneous Python values stored in an actor's keyword dictionary as the
small dynamic universe `PyVal`, and dictionaries as association lists with
Python `dict` semantics (update in place, insert at the end).
-/

namespace Picturebox

/-- A Python value as it occurs in an actor's keyword dictionary: a number,
a boolean, a string, or a callable taking (phase, localTime). -/
inductive PyVal where
  | num (q : ℚ)
  | bool (b : Bool)
  | str (s : String)
  | fn (f : ℤ → ℚ → PyVal)

/-- Python truthiness of a `PyVal` (used by `not self.has_shadow`):
nonzero numbers, `True`, nonempty strings and every callable are truthy. -/
def PyVal.truthy : PyVal → Bool
  | .num q => q ≠ 0
  | .bool b => b
  | .str s => s ≠ ""
  | .fn _ => true

/-- Numeric coercion of a `PyVal`, as Python applies it when a dictionary
value is bound to the numeric `alpha` parameter and multiplied
(`bool` is an int in Python; for a string or callable Python would raise a
TypeError, which no theorem below reaches -- those cases are mapped to 0). -/
def PyVal.toQ : PyVal → ℚ
  | .num q => q
  | .bool b => if b then 1 else 0
  | .str _ => 0
  | .fn _ => 0

/-- An actor's keyword dictionary (`self.kwargs`): insertion-ordered
association list with unique keys, like a Python `dict`. -/
abbrev Dict := List (String × PyVal)

/-- `d[k]` lookup on a `Dict`. -/
def dictGet : Dict → String → Option PyVal
  | [], _ => none
  | (k', v) :: rest, k => if k = k' then some v else dictGet rest k

/-- `d[k] = v` on a `Dict`: overwrite in place if the key exists,
append otherwise (Python `dict` insertion order). -/
def dictSet : Dict → String → PyVal → Dict
  | [], k, v => [(k, v)]
  | (k', v') :: rest, k, v =>
      if k = k' then (k', v) :: rest else (k', v') :: dictSet rest k v

/-- `del d[k]` on a `Dict` (removes the first binding of `k`; a Python
`dict` holds at most one). -/
def dictRemove : Dict → String → Dict
  | [], _ => []
  | (k', v) :: rest, k => if k = k' then rest else (k', v) :: dictRemove rest k

/-- `linterp(x0,y0,x1,y1,x)` from `actor.py`:
`t=(x-x0)/(x1-x0); (1-t)*y0+t*y1`. -/
def linterp (x0 y0 x1 y1 x : ℚ) : ℚ :=
  let t := (x - x0) / (x1 - x0)
  (1 - t) * y0 + t * y1

/-- `smooth(x) = -2x^3+3x^2` from `actor.py`. -/
def smooth (x : ℚ) : ℚ := -2 * x ^ 3 + 3 * x ^ 2

/-- `tc(min,sec,frame) = (min*60+sec)*24+frame` from `actor.py`. -/
def tc (mn sec frame : ℤ) : ℤ := (mn * 60 + sec) * 24 + frame

/-- The interval scan of `Actor.draw` (`for i_phase in range(len(ts)-1):
if t < ts[i_phase+1]: ...`), walking consecutive breakpoints; `i` is the
index of the interval currently examined.  Returns the first interval index
`i` with `t < ts[i+1]`, or `none` when the loop falls through. -/
def scanPairs (t : ℚ) : List ℚ → ℕ → Option ℕ
  | _ :: x1 :: rest, i =>
      if t < x1 then some i else scanPairs t (x1 :: rest) (i + 1)
  | _, _ => none

/-- The phase-locating scan of `Actor.draw` started at interval 0. -/
def findPhase (ts : List ℚ) (t : ℚ) : Option ℕ := scanPairs t ts 0

/-- Lines 186-196 of `Actor.draw`: the scan, the `phase is None` fallback
(`phase=-1; tt=1.0`), and the final-interval remap
(`if phase==len(self.ts)-2: phase=-1`).  Returns `(phase, tt)`. -/
def locate (ts : List ℚ) (t : ℚ) : ℤ × ℚ :=
  match findPhase ts t with
  | some i =>
      (if (i : ℤ) = (ts.length : ℤ) - 2 then -1 else (i : ℤ),
       linterp (ts.getD i 0) 0 (ts.getD (i + 1) 0) 1 t)
  | none => (-1, 1)

/-- A call issued against a drawing primitive of the picture box
(`pb.line`, `pb.text`, `pb.stroke`, `pb.image`, ...). -/
structure Prim where
  name : String
  args : List PyVal

/-- One observable canvas event during `perform`: a drawing-primitive call
from a stage handler, or one of the driver's own `pb.clear()`,
`pb.update()`, `pb.savepng(oufn_pat%i_frame)` calls. -/
inductive Event where
  | prim (p : Prim)
  | clear
  | update
  | savepng (pat : String) (frame : ℤ)

/-- The stage handler selected by `Actor.draw` together with its time
argument: `self._enter(...)`, `self._act(...)` or `self._leave(...)`. -/
inductive Dispatch where
  | enter (tt : ℚ)
  | act (phase : ℤ) (tt : ℚ)
  | leave (tt : ℚ)

/-- The state and behaviour of an `Actor` after `__init__` has run: the
breakpoint array `ts`, the `has_shadow` attribute (any Python value), the
`callables` dictionary of dynamic parameters, the `kwargs` dictionary, and
the three (possibly overridden) acting methods.  A handler takes its time
arguments, `alpha`, `shadow` and the remaining keyword dictionary, and
returns the list of primitive calls it issues. -/
structure Actor where
  ts : List ℚ
  has_shadow : PyVal
  callables : List (String × (ℤ → ℚ → PyVal))
  kwargs : Dict
  enter : ℚ → ℚ → Bool → Dict → List Prim
  act : ℤ → ℚ → ℚ → Bool → Dict → List Prim
  leave : ℚ → ℚ → Bool → Dict → List Prim

/-- The classification loop of `Actor.__init__`: the callable entries of
the construction kwargs, in insertion order. -/
def callablesOf (kwargs : Dict) : List (String × (ℤ → ℚ → PyVal)) :=
  kwargs.filterMap (fun kv =>
    match kv.2 with
    | .fn f => some (kv.1, f)
    | _ => none)

/-- `Actor.__init__(ts, has_shadow, **kwargs)`: a callable `has_shadow`
goes into `self.callables["has_shadow"]`; each callable kwarg goes into
`self.callables`; then line 131 (`self.kwargs=kwargs`) leaves
`self.kwargs` as the original construction kwargs (so a static
`has_shadow` is *not* in `self.kwargs`, and callable kwargs are still
present as function objects until first resolved). -/
def Actor.init (ts : List ℚ) (has_shadow : PyVal) (kwargs : Dict)
    (enter : ℚ → ℚ → Bool → Dict → List Prim)
    (act : ℤ → ℚ → ℚ → Bool → Dict → List Prim)
    (leave : ℚ → ℚ → Bool → Dict → List Prim) : Actor :=
  { ts := ts
    has_shadow := has_shadow
    callables :=
      (match has_shadow with
       | .fn f => [("has_shadow", f)]
       | _ => []) ++ callablesOf kwargs
    kwargs := kwargs
    enter := enter
    act := act
    leave := leave }

/-- `Actor._set_kwargs(phase, tt)`:
`for k,f in self.callables.items(): self.kwargs[k]=f(phase,tt)`. -/
def Actor.set_kwargs (a : Actor) (phase : ℤ) (tt : ℚ) : Actor :=
  { a with
    kwargs := a.callables.foldl (fun d kf => dictSet d kf.1 (kf.2 phase tt)) a.kwargs }

/-- The early-return test of `Actor.draw` line 184:
`t<self.ts[0] or t>=self.ts[-1] or (shadow and not self.has_shadow)`. -/
def Actor.skips (a : Actor) (t : ℚ) (shadow : Bool) : Prop :=
  t < a.ts.headD 0 ∨ a.ts.getLastD 0 ≤ t ∨ (shadow = true ∧ a.has_shadow.truthy = false)

instance (a : Actor) (t : ℚ) (shadow : Bool) : Decidable (a.skips t shadow) := by
  unfold Actor.skips; infer_instance

/-- `Actor.draw` up to the point where an acting method is invoked: `none`
on the early return, otherwise the resolved actor (after `_set_kwargs`)
and the selected stage handler with its time argument
(`if phase==0: _enter / elif phase==-1: _leave / else: _act`). -/
def Actor.drawDispatch (a : Actor) (t : ℚ) (shadow : Bool) :
    Option (Actor × Dispatch) :=
  if a.skips t shadow then none
  else
    let p := locate a.ts t
    let a' := a.set_kwargs p.1 p.2
    some (a',
      if p.1 = 0 then .enter p.2
      else if p.1 = -1 then .leave p.2
      else .act p.1 p.2)

/-- The Python keyword binding performed when `draw` calls an acting method
with `**self.kwargs`: an `"alpha"` entry binds the `alpha=1.0` parameter
(and is removed from the `**kwargs` the handler receives); the rest is
passed through. -/
def Actor.runDispatch (a : Actor) (d : Dispatch) (shadow : Bool) : List Prim :=
  let alpha : ℚ :=
    match dictGet a.kwargs "alpha" with
    | some v => v.toQ
    | none => 1
  let kw := dictRemove a.kwargs "alpha"
  match d with
  | .enter tt => a.enter tt alpha shadow kw
  | .leave tt => a.leave tt alpha shadow kw
  | .act phase tt => a.act phase tt alpha shadow kw

/-- `Actor.draw(pb, t, shadow)`: the updated actor state and the primitive
calls issued on the picture box. -/
def Actor.draw (a : Actor) (t : ℚ) (shadow : Bool) : Actor × List Prim :=
  match a.drawDispatch t shadow with
  | none => (a, [])
  | some (a', d) => (a', a'.runDispatch d shadow)

/-- Default `Actor._enter`:
`self._act(pb=pb, phase=0, tt=0, alpha=alpha*tt, shadow=shadow, **kwargs)`. -/
def default_enter (act : ℤ → ℚ → ℚ → Bool → Dict → List Prim) :
    ℚ → ℚ → Bool → Dict → List Prim :=
  fun tt alpha shadow kw => act 0 0 (alpha * tt) shadow kw

/-- Default `Actor._leave`:
`self._act(pb, phase=-1, tt=1, alpha=alpha*(1-tt), shadow=shadow, **kwargs)`. -/
def default_leave (act : ℤ → ℚ → ℚ → Bool → Dict → List Prim) :
    ℚ → ℚ → Bool → Dict → List Prim :=
  fun tt alpha shadow kw => act (-1) 1 (alpha * (1 - tt)) shadow kw

/-- One pass of `perform` over the actor list
(`for actor in actors: actor.draw(pb, i_frame, shadow=...)`), threading the
actors' mutable state and concatenating the primitives they issue. -/
def drawPass : List Actor → ℚ → Bool → List Actor × List Prim
  | [], _, _ => ([], [])
  | a :: rest, t, sh =>
      let r := a.draw t sh
      let rs := drawPass rest t sh
      (r.1 :: rs.1, r.2 ++ rs.2)

/-- The optional shadow pass of one `perform` iteration
(`if shadow: for actor in actors: actor.draw(pb, i_frame, shadow=True)`). -/
def shadowPass (actors : List Actor) (t : ℚ) (sh : Bool) :
    List Actor × List Prim :=
  if sh then drawPass actors t true else (actors, [])

/-- One loop iteration of `perform`: `pb.clear()`; the shadow pass (only
when the `shadow` flag is set); the main pass; `pb.update()`;
`pb.savepng(oufn_pat%i_frame)`. -/
def performFrame (actors : List Actor) (f : ℤ) (pat : String) (sh : Bool) :
    List Actor × List Event :=
  let s := shadowPass actors (f : ℚ) sh
  let m := drawPass s.1 (f : ℚ) false
  (m.1,
   Event.clear ::
     (s.2.map Event.prim ++ m.2.map Event.prim ++
       [Event.update, Event.savepng pat f]))

/-- The frame loop of `perform`, by remaining frame count. -/
def performFrames (actors : List Actor) (f0 : ℤ) (n : ℕ) (pat : String)
    (sh : Bool) : List Actor × List Event :=
  match n with
  | 0 => (actors, [])
  | n + 1 =>
      let r := performFrame actors f0 pat sh
      let rs := performFrames r.1 (f0 + 1) n pat sh
      (rs.1, r.2 ++ rs.2)

/-- `perform(pb, actors, f0, f1, oufn_pat, shadow)`: iterate
`range(f0, f1)`. -/
def perform (actors : List Actor) (f0 f1 : ℤ) (pat : String) (sh : Bool) :
    List Actor × List Event :=
  performFrames actors f0 (f1 - f0).toNat pat sh

/-- The construction invariant of a breakpoint sequence: strictly
increasing, stated positionally. -/
def StrictIncr (ts : List ℚ) : Prop :=
  ∀ i, i < ts.length - 1 → ts.getD i 0 < ts.getD (i + 1) 0

instance (ts : List ℚ) : Decidable (StrictIncr ts) := by
  unfold StrictIncr; infer_instance

/-- The shape required of a `perform` event stream: one block per frame,
each consisting of `clear`, then the shadow-pass primitives drawn from the
frame's incoming actor states, then the main-pass primitives drawn from
the post-shadow-pass states, then `update` and exactly one `savepng` with
the output pattern and the frame number; frame numbers increase one by one
from the starting frame, one block per frame. -/
inductive PerformTrace (pat : String) (sh : Bool) :
    List Actor → ℤ → ℕ → List Event → Prop where
  | nil (actors : List Actor) (f : ℤ) : PerformTrace pat sh actors f 0 []
  | cons (actors : List Actor) (f : ℤ) (n : ℕ) (rest : List Event) :
      PerformTrace pat sh
        (drawPass (shadowPass actors (f : ℚ) sh).1 (f : ℚ) false).1
        (f + 1) n rest →
      PerformTrace pat sh actors f (n + 1)
        (Event.clear ::
          ((shadowPass actors (f : ℚ) sh).2.map Event.prim ++
            (drawPass (shadowPass actors (f : ℚ) sh).1 (f : ℚ) false).2.map
              Event.prim ++
            [Event.update, Event.savepng pat f] ++ rest))

/-! ### Concrete actors used by witnesses and counterexamples -/

/-- An act handler that issues no primitive calls. -/
def actNil : ℤ → ℚ → ℚ → Bool → Dict → List Prim := fun _ _ _ _ _ => []

/-- An enter/leave handler that issues no primitive calls. -/
def stageNil : ℚ → ℚ → Bool → Dict → List Prim := fun _ _ _ _ => []

/-- An act handler that issues one `pb.line` call. -/
def actLine : ℤ → ℚ → ℚ → Bool → Dict → List Prim :=
  fun _ _ _ _ _ => [⟨"line", []⟩]

/-- An act handler that issues one call recording its `alpha` argument. -/
def actMark : ℤ → ℚ → ℚ → Bool → Dict → List Prim :=
  fun _ _ alpha _ _ => [⟨"mark", [.num alpha]⟩]

/-- A plain actor on `ts=[0,1,2,3]` with no extra parameters. -/
def aW : Actor := Actor.init [0, 1, 2, 3] (.bool true) [] stageNil actNil stageNil

/-- An actor built on the non-increasing sequence `ts=[0,5,3,10]`
(violating the construction invariant). -/
def aC4 : Actor := Actor.init [0, 5, 3, 10] (.bool true) [] stageNil actNil stageNil

/-- A plain actor on the six-point sequence `ts=[0,1,2,3,4,5]`. -/
def aC3 : Actor :=
  Actor.init [0, 1, 2, 3, 4, 5] (.bool true) [] stageNil actNil stageNil

/-- An actor whose has-shadow attribute is a dynamic provider that always
resolves to `False`, with default enter/leave over `actLine`. -/
def aC5 : Actor :=
  Actor.init [0, 1, 2, 3] (.fn (fun _ _ => .bool false)) []
    (default_enter actLine) actLine (default_leave actLine)

/-- An actor whose has-shadow attribute is the static value `False`. -/
def aC5s : Actor :=
  Actor.init [0, 1, 2, 3] (.bool false) []
    (default_enter actLine) actLine (default_leave actLine)

/-- An actor with one dynamic parameter `x = λ phase tt. tt`. -/
def aC7 : Actor :=
  Actor.init [0, 1, 2, 3] (.bool true) [("x", .fn (fun _ tt => .num tt))]
    stageNil actNil stageNil

/-- The actor `aC7` carrying a stale resolved value for `x` left over from
an earlier frame. -/
def aC7s : Actor := { aC7 with kwargs := [("x", .num 99)] }

/-- An actor with one dynamic parameter `x` and one static parameter `c`. -/
def aC6 : Actor :=
  Actor.init [0, 1, 2, 3] (.bool true)
    [("x", .fn (fun _ tt => .num tt)), ("c", .num 7)] stageNil actNil stageNil

/-- The state of `aC6` after the resolution step of a draw at frame `1/2`
(phase 0, local time `1/2`). -/
def aC6r : Actor := { aC6 with kwargs := [("x", .num (1 / 2)), ("c", .num 7)] }

/-- The state of `aC7s` after the resolution step of a draw at frame 1
(phase 1, local time 0): the stale value is overwritten. -/
def aC7r : Actor := { aC7 with kwargs := [("x", .num 0)] }

/-- An actor with the default enter/leave stages over `actMark` and no
extra parameters. -/
def aC8 : Actor :=
  Actor.init [0, 1, 2, 3] (.bool true) []
    (default_enter actMark) actMark (default_leave actMark)

/-- An actor with a callable has-shadow provider and a dynamic parameter,
for the out-of-range claim. -/
def aC10 : Actor :=
  Actor.init [0, 1, 2, 3] (.fn (fun _ _ => .bool true))
    [("x", .fn (fun _ tt => .num tt))] stageNil actNil stageNil

/-! ### Dictionary lemmas -/

theorem dictGet_dictSet_self (d : Dict) (k : String) (v : PyVal) :
    dictGet (dictSet d k v) k = some v := by
  induction d with
  | nil => simp [dictGet, dictSet]
  | cons kv rest ih =>
      obtain ⟨k', v'⟩ := kv
      by_cases h : k = k' <;> simp [dictGet, dictSet, h, ih]

theorem dictGet_dictSet_ne (d : Dict) {k k' : String} (v : PyVal) (h : k ≠ k') :
    dictGet (dictSet d k' v) k = dictGet d k := by
  induction d with
  | nil => simp [dictGet, dictSet, h]
  | cons kv rest ih =>
      obtain ⟨k1, v1⟩ := kv
      by_cases h1 : k' = k1
      · subst h1; simp [dictGet, dictSet, h]
      · by_cases h2 : k = k1 <;> simp [dictGet, dictSet, h1, h2, ih]

theorem dictGet_dictRemove_ne (d : Dict) {k k' : String} (h : k ≠ k') :
    dictGet (dictRemove d k') k = dictGet d k := by
  induction d with
  | nil => simp [dictRemove]
  | cons kv rest ih =>
      obtain ⟨k1, v1⟩ := kv
      by_cases h1 : k' = k1
      · subst h1; simp [dictGet, dictRemove, h]
      · by_cases h2 : k = k1 <;> simp [dictGet, dictRemove, h1, h2, ih]

theorem dictRemove_of_get_none (d : Dict) (k : String)
    (h : dictGet d k = none) : dictRemove d k = d := by
  induction d with
  | nil => simp [dictRemove]
  | cons kv rest ih =>
      obtain ⟨k1, v1⟩ := kv
      by_cases h1 : k = k1
      · simp [dictGet, h1] at h
      · simp [dictGet, h1] at h
        simp [dictRemove, h1, ih h]

theorem dictGet_of_mem (d : Dict) (k : String) (v : PyVal)
    (hnodup : (d.map Prod.fst).Nodup) (hmem : (k, v) ∈ d) :
    dictGet d k = some v := by
  induction d with
  | nil => simp at hmem
  | cons kv rest ih =>
      obtain ⟨k1, v1⟩ := kv
      simp only [List.map_cons, List.nodup_cons] at hnodup
      rcases List.mem_cons.1 hmem with h | h
      · obtain ⟨rfl, rfl⟩ := Prod.mk.injEq .. ▸ h
        simp [dictGet]
      · have hk : k ≠ k1 := by
          rintro rfl
          exact hnodup.1 (List.mem_map.2 ⟨(k, v), h, rfl⟩)
        simp [dictGet, hk, ih hnodup.2 h]

theorem mem_key_of_mem (d : Dict) (k : String) (v : PyVal)
    (hmem : (k, v) ∈ d) : k ∈ d.map Prod.fst :=
  List.mem_map.2 ⟨(k, v), hmem, rfl⟩

theorem mem_values_unique (d : Dict) (k : String) (v w : PyVal)
    (hnodup : (d.map Prod.fst).Nodup) (hv : (k, v) ∈ d) (hw : (k, w) ∈ d) :
    v = w := by
  have h1 := dictGet_of_mem d k v hnodup hv
  have h2 := dictGet_of_mem d k w hnodup hw
  rw [h1] at h2
  exact Option.some.inj h2

/-! ### Lemmas on the resolution fold of `Actor._set_kwargs` -/

theorem foldl_set_get_notMem (p : ℤ) (tt : ℚ) (k : String) :
    ∀ (cs : List (String × (ℤ → ℚ → PyVal))) (d : Dict),
      k ∉ cs.map Prod.fst →
      dictGet (cs.foldl (fun d kf => dictSet d kf.1 (kf.2 p tt)) d) k = dictGet d k
  | [], d, _ => rfl
  | (k1, f1) :: rest, d, h => by
      simp only [List.map_cons, List.mem_cons, not_or] at h
      rw [List.foldl_cons,
        foldl_set_get_notMem p tt k rest (dictSet d k1 (f1 p tt)) h.2,
        dictGet_dictSet_ne d (f1 p tt) h.1]

theorem foldl_set_get_mem (p : ℤ) (tt : ℚ) (k : String) (f : ℤ → ℚ → PyVal) :
    ∀ (cs : List (String × (ℤ → ℚ → PyVal))) (d : Dict),
      (cs.map Prod.fst).Nodup → (k, f) ∈ cs →
      dictGet (cs.foldl (fun d kf => dictSet d kf.1 (kf.2 p tt)) d) k = some (f p tt)
  | [], _, _, hmem => by simp at hmem
  | (k1, f1) :: rest, d, hnodup, hmem => by
      simp only [List.map_cons, List.nodup_cons] at hnodup
      rcases List.mem_cons.1 hmem with h | h
      · obtain ⟨rfl, rfl⟩ := Prod.mk.injEq .. ▸ h
        rw [List.foldl_cons, foldl_set_get_notMem p tt k rest _ hnodup.1,
          dictGet_dictSet_self]
      · rw [List.foldl_cons, foldl_set_get_mem p tt k f rest _ hnodup.2 h]

/-! ### Lemmas on the interval scan -/

theorem scanPairs_shift (t : ℚ) :
    ∀ (l : List ℚ) (i : ℕ), scanPairs t l i = (scanPairs t l 0).map (· + i)
  | [], _ => rfl
  | [_], _ => rfl
  | x0 :: x1 :: rest, i => by
      by_cases h : t < x1
      · simp [scanPairs, h]
      · simp only [scanPairs, h, if_false]
        rw [scanPairs_shift t (x1 :: rest) (i + 1), scanPairs_shift t (x1 :: rest) 1]
        cases scanPairs t (x1 :: rest) 0 <;> simp <;> omega

theorem scanPairs_zero_some (t : ℚ) :
    ∀ (l : List ℚ) (j : ℕ), scanPairs t l 0 = some j →
      j + 1 < l.length ∧ t < l.getD (j + 1) 0 ∧ ∀ k, k < j → l.getD (k + 1) 0 ≤ t
  | [], j, h => by simp [scanPairs] at h
  | [_], j, h => by simp [scanPairs] at h
  | x0 :: x1 :: rest, j, h => by
      by_cases hx : t < x1
      · simp only [scanPairs, hx, if_true, Option.some.injEq] at h
        subst h
        refine ⟨by simp only [List.length_cons]; omega, by simpa using hx,
          fun k hk => by omega⟩
      · simp only [scanPairs, hx, if_false] at h
        rw [scanPairs_shift t (x1 :: rest) 1] at h
        obtain ⟨j', hj', rfl⟩ := Option.map_eq_some'.1 h
        obtain ⟨h1, h2, h3⟩ := scanPairs_zero_some t (x1 :: rest) j' hj'
        refine ⟨by simp at h1 ⊢; omega, by simpa using h2, ?_⟩
        intro k hk
        match k with
        | 0 => simpa using le_of_not_lt hx
        | k' + 1 => simpa using h3 k' (by omega)

theorem scanPairs_zero_isSome (t : ℚ) :
    ∀ (l : List ℚ), 2 ≤ l.length → t < l.getD (l.length - 1) 0 →
      (scanPairs t l 0).isSome
  | [], hlen, _ => by simp at hlen
  | [_], hlen, _ => by simp at hlen
  | x0 :: x1 :: rest, _, hlast => by
      by_cases hx : t < x1
      · simp [scanPairs, hx]
      · match rest with
        | [] => simp at hlast; exact absurd hlast hx
        | r :: rs =>
            have hstep : scanPairs t (x0 :: x1 :: r :: rs) 0
                = if t < x1 then some 0 else scanPairs t (x1 :: r :: rs) 1 := rfl
            rw [hstep, if_neg hx, scanPairs_shift t (x1 :: r :: rs) 1]
            have hrec := scanPairs_zero_isSome t (x1 :: r :: rs) (by simp)
              (by simpa using hlast)
            obtain ⟨j, hj⟩ := Option.isSome_iff_exists.1 hrec
            simp [hj]

theorem strictIncr_getD_le {l : List ℚ} (h : StrictIncr l) :
    ∀ i j, i ≤ j → j < l.length → l.getD i 0 ≤ l.getD j 0 := by
  intro i j
  induction j with
  | zero =>
      intro hij _
      have hi0 : i = 0 := by omega
      subst hi0; exact le_refl _
  | succ j' ih =>
      intro hij hj
      rcases Nat.lt_or_ge i (j' + 1) with hlt | hge
      · have h1 : l.getD i 0 ≤ l.getD j' 0 := ih (by omega) (by omega)
        have h2 : l.getD j' 0 < l.getD (j' + 1) 0 := h j' (by omega)
        linarith
      · have hieq : i = j' + 1 := by omega
        subst hieq; exact le_refl _

/-- The first match of the scan on an in-range frame is the interval that
contains it (this holds with no monotonicity assumption on `ts`). -/
theorem findPhase_containing (ts : List ℚ) (f : ℚ)
    (hlen : 2 ≤ ts.length)
    (hlo : ts.getD 0 0 ≤ f) (hhi : f < ts.getD (ts.length - 1) 0) :
    ∃ i, findPhase ts f = some i ∧ i + 1 < ts.length ∧
      ts.getD i 0 ≤ f ∧ f < ts.getD (i + 1) 0 := by
  have hsome := scanPairs_zero_isSome f ts hlen hhi
  obtain ⟨i, hi⟩ := Option.isSome_iff_exists.1 hsome
  obtain ⟨h1, h2, h3⟩ := scanPairs_zero_some f ts i hi
  refine ⟨i, hi, h1, ?_, h2⟩
  match i, h3 with
  | 0, _ => exact hlo
  | i' + 1, h3 => exact h3 i' (by omega)

/-- Under the strictly-increasing invariant, the scan returns exactly the
interval containing the frame. -/
theorem findPhase_eq_of_mem (ts : List ℚ) (f : ℚ) (i : ℕ)
    (hmono : StrictIncr ts) (hi : i + 1 < ts.length)
    (hlo : ts.getD i 0 ≤ f) (hhi : f < ts.getD (i + 1) 0) :
    findPhase ts f = some i := by
  have hlast : f < ts.getD (ts.length - 1) 0 :=
    lt_of_lt_of_le hhi (strictIncr_getD_le hmono (i + 1) (ts.length - 1)
      (by omega) (by omega))
  have hfirst : ts.getD 0 0 ≤ f :=
    le_trans (strictIncr_getD_le hmono 0 i (by omega) (by omega)) hlo
  obtain ⟨j, hj, hjlen, hjlo, hjhi⟩ :=
    findPhase_containing ts f (by omega) hfirst hlast
  have : j = i := by
    rcases Nat.lt_trichotomy j i with h | h | h
    · exfalso
      have : ts.getD (j + 1) 0 ≤ ts.getD i 0 :=
        strictIncr_getD_le hmono (j + 1) i (by omega) (by omega)
      linarith
    · exact h
    · exfalso
      obtain ⟨_, _, h3⟩ := scanPairs_zero_some f ts j hj
      have := h3 i h
      linarith
  subst this
  exact hj

theorem headD_eq_getD : ∀ (l : List ℚ), l ≠ [] → l.headD 0 = l.getD 0 0
  | [], h => absurd rfl h
  | _ :: _, _ => rfl

theorem getLastD_eq_getD :
    ∀ (l : List ℚ) (d : ℚ), l ≠ [] → l.getLastD d = l.getD (l.length - 1) 0
  | [], _, h => absurd rfl h
  | [a], d, _ => rfl
  | a :: b :: rs, d, _ => by
      have ih := getLastD_eq_getD (b :: rs) a (by simp)
      simp only [List.getLastD_cons] at ih ⊢
      rw [ih]
      have hlen : (a :: b :: rs).length - 1 = ((b :: rs).length - 1) + 1 := by
        simp
      rw [hlen, List.getD_cons_succ]

/-! ### Classification lemmas for `Actor.__init__` -/

theorem mem_callablesOf (kw : Dict) (k : String) (f : ℤ → ℚ → PyVal) :
    (k, f) ∈ callablesOf kw ↔ (k, PyVal.fn f) ∈ kw := by
  induction kw with
  | nil => simp [callablesOf]
  | cons kv rest ih =>
      obtain ⟨k1, v1⟩ := kv
      cases v1 <;>
        simp_all [callablesOf, List.filterMap_cons, PyVal.fn.injEq,
          Prod.mk.injEq, and_assoc]

theorem callablesOf_keys_sublist (kw : Dict) :
    ((callablesOf kw).map Prod.fst).Sublist (kw.map Prod.fst) := by
  induction kw with
  | nil => simp [callablesOf]
  | cons kv rest ih =>
      obtain ⟨k1, v1⟩ := kv
      cases v1 with
      | num q => exact List.Sublist.cons _ ih
      | bool b => exact List.Sublist.cons _ ih
      | str s => exact List.Sublist.cons _ ih
      | fn f => exact List.Sublist.cons₂ _ ih

theorem init_callables_keys_nodup (ts : List ℚ) (hs : PyVal) (kw : Dict)
    (e : ℚ → ℚ → Bool → Dict → List Prim)
    (act : ℤ → ℚ → ℚ → Bool → Dict → List Prim)
    (l : ℚ → ℚ → Bool → Dict → List Prim)
    (hnodup : (kw.map Prod.fst).Nodup)
    (hhs : "has_shadow" ∉ kw.map Prod.fst) :
    (((Actor.init ts hs kw e act l).callables).map Prod.fst).Nodup := by
  have hsub := callablesOf_keys_sublist kw
  have hnd : ((callablesOf kw).map Prod.fst).Nodup := hsub.nodup hnodup
  have hhs' : "has_shadow" ∉ (callablesOf kw).map Prod.fst :=
    fun h => hhs (hsub.mem h)
  cases hs <;> simp [Actor.init, hnd, hhs']

theorem init_callables_key_mem (ts : List ℚ) (hs : PyVal) (kw : Dict)
    (e : ℚ → ℚ → Bool → Dict → List Prim)
    (act : ℤ → ℚ → ℚ → Bool → Dict → List Prim)
    (l : ℚ → ℚ → Bool → Dict → List Prim) (k : String)
    (hk : k ∈ ((Actor.init ts hs kw e act l).callables).map Prod.fst) :
    k = "has_shadow" ∨ ∃ g, (k, PyVal.fn g) ∈ kw := by
  obtain ⟨⟨k1, g⟩, hg, hk1⟩ := List.mem_map.1 hk
  cases hk1
  rcases List.mem_append.1 hg with hg | hg
  · left
    cases hs with
    | num q => cases hg
    | bool b => cases hg
    | str s => cases hg
    | fn f =>
        cases hg with
        | head => rfl
        | tail _ h => cases h
  · right
    exact ⟨g, (mem_callablesOf kw k1 g).1 hg⟩

/-! ### Claim theorems -/

/-- C1: for every breakpoint sequence `ts` of length at least 4 that is
strictly increasing, and every frame `f` with `ts[0] <= f < ts[-1]`, the
phase-locating step of `draw` yields a phase in `{0,-1} ∪ {1..len(ts)-3}`
and a local time `tt` in `[0,1)`. -/
theorem C1_locate_range (ts : List ℚ) (f : ℚ)
    (hlen : 4 ≤ ts.length) (_hmono : StrictIncr ts)
    (hlo : ts.getD 0 0 ≤ f) (hhi : f < ts.getD (ts.length - 1) 0) :
    ((locate ts f).1 = 0 ∨ (locate ts f).1 = -1 ∨
      (1 ≤ (locate ts f).1 ∧ (locate ts f).1 ≤ (ts.length : ℤ) - 3)) ∧
    0 ≤ (locate ts f).2 ∧ (locate ts f).2 < 1 := by
  obtain ⟨i, hi, hilen, hilo, hihi⟩ :=
    findPhase_containing ts f (by omega) hlo hhi
  have hpos : 0 < ts.getD (i + 1) 0 - ts.getD i 0 := by linarith
  have htt : linterp (ts.getD i 0) 0 (ts.getD (i + 1) 0) 1 f
      = (f - ts.getD i 0) / (ts.getD (i + 1) 0 - ts.getD i 0) := by
    unfold linterp; ring
  constructor
  · simp only [locate, hi]
    by_cases hcase : (i : ℤ) = (ts.length : ℤ) - 2
    · simp [hcase]
    · simp only [hcase, if_false]
      rcases Nat.eq_zero_or_pos i with h0 | h0
      · subst h0; left; rfl
      · right; right
        exact ⟨by exact_mod_cast h0, by omega⟩
  · simp only [locate, hi, htt]
    constructor
    · exact div_nonneg (by linarith) (le_of_lt hpos)
    · rw [div_lt_one hpos]
      linarith

/-- C1 witness: `ts=[0,10,50,60]`, frame 5. -/
theorem C1_witness :
    ((locate [(0 : ℚ), 10, 50, 60] 5).1 = 0 ∨
      (locate [(0 : ℚ), 10, 50, 60] 5).1 = -1 ∨
      (1 ≤ (locate [(0 : ℚ), 10, 50, 60] 5).1 ∧
        (locate [(0 : ℚ), 10, 50, 60] 5).1 ≤
          (([(0 : ℚ), 10, 50, 60]).length : ℤ) - 3)) ∧
    0 ≤ (locate [(0 : ℚ), 10, 50, 60] 5).2 ∧
      (locate [(0 : ℚ), 10, 50, 60] 5).2 < 1 :=
  C1_locate_range [(0 : ℚ), 10, 50, 60] 5 (by norm_num) (by decide)
    (by norm_num) (by norm_num)

/-- C2: with the main (non-shadow) pass, `draw` performs no drawing and no
dispatch exactly when `f < ts[0]` or `f >= ts[-1]`; for every other frame
some stage handler is dispatched. -/
theorem C2_out_of_range_iff (a : Actor) (t : ℚ) :
    (t < a.ts.headD 0 ∨ a.ts.getLastD 0 ≤ t →
      a.draw t false = (a, []) ∧ a.drawDispatch t false = none) ∧
    (a.ts.headD 0 ≤ t → t < a.ts.getLastD 0 →
      ∃ a' d, a.drawDispatch t false = some (a', d)) := by
  constructor
  · intro h
    have hs : a.skips t false := by
      rcases h with h | h
      · exact Or.inl h
      · exact Or.inr (Or.inl h)
    have hd : a.drawDispatch t false = none := by
      rw [Actor.drawDispatch, if_pos hs]
    refine ⟨?_, hd⟩
    rw [Actor.draw, hd]
  · intro h1 h2
    have hs : ¬ a.skips t false := by
      rintro (h | h | h)
      · linarith
      · linarith
      · exact Bool.false_ne_true h.1
    rw [Actor.drawDispatch, if_neg hs]
    exact ⟨_, _, rfl⟩

/-- C2 witness: a concrete actor with `ts=[0,1,2,3]`; frame 5 draws
nothing, frame 1 dispatches a handler. -/
theorem C2_witness :
    ((aW.draw 5 false = (aW, []) ∧ aW.drawDispatch 5 false = none) ∧
      ∃ a' d, aW.drawDispatch 1 false = some (a', d)) :=
  ⟨(C2_out_of_range_iff aW 5).1 (by norm_num [aW, Actor.init]),
   (C2_out_of_range_iff aW 1).2 (by norm_num [aW, Actor.init])
     (by norm_num [aW, Actor.init])⟩

/-- C3: for every in-range frame, the phase passed to the stage handlers
follows the remapping rule: the first interval dispatches the enter
handler; the last interval (index `N-2` for `N = len(ts)`) dispatches the
leave handler via the sentinel phase `-1`; every interior interval `i`
with `1 <= i <= N-3` dispatches the act handler with its phase number `i`
unchanged. -/
theorem C3_phase_remap (a : Actor) (f : ℚ) (i : ℕ)
    (hlen : 4 ≤ a.ts.length) (hmono : StrictIncr a.ts)
    (hi : i + 1 < a.ts.length)
    (hlo : a.ts.getD i 0 ≤ f) (hhi : f < a.ts.getD (i + 1) 0) :
    (i = 0 → ∃ a', a.drawDispatch f false
        = some (a', Dispatch.enter (locate a.ts f).2)) ∧
    (i = a.ts.length - 2 → ∃ a', a.drawDispatch f false
        = some (a', Dispatch.leave (locate a.ts f).2)) ∧
    (1 ≤ i → i ≤ a.ts.length - 3 → ∃ a', a.drawDispatch f false
        = some (a', Dispatch.act i (locate a.ts f).2)) := by
  have hne : a.ts ≠ [] := by
    intro h; rw [h] at hlen; simp at hlen
  have hfp : findPhase a.ts f = some i := findPhase_eq_of_mem a.ts f i hmono hi hlo hhi
  have hin1 : a.ts.getD 0 0 ≤ f :=
    le_trans (strictIncr_getD_le hmono 0 i (by omega) (by omega)) hlo
  have hin2 : f < a.ts.getD (a.ts.length - 1) 0 :=
    lt_of_lt_of_le hhi
      (strictIncr_getD_le hmono (i + 1) (a.ts.length - 1) (by omega) (by omega))
  have hskips : ¬ a.skips f false := by
    rw [Actor.skips, headD_eq_getD _ hne, getLastD_eq_getD _ _ hne]
    rintro (h | h | h)
    · linarith
    · linarith
    · exact Bool.false_ne_true h.1
  refine ⟨?_, ?_, ?_⟩
  · intro h0
    subst h0
    have hphase : (locate a.ts f).1 = 0 := by
      simp only [locate, hfp]
      have hne2 : ¬ ((0 : ℤ) = (a.ts.length : ℤ) - 2) := by omega
      simp [hne2]
    refine ⟨a.set_kwargs (locate a.ts f).1 (locate a.ts f).2, ?_⟩
    simp only [Actor.drawDispatch, if_neg hskips]
    rw [hphase]
    simp
  · intro hN
    subst hN
    have hphase : (locate a.ts f).1 = -1 := by
      simp only [locate, hfp]
      have heq : ((a.ts.length - 2 : ℕ) : ℤ) = (a.ts.length : ℤ) - 2 := by omega
      simp [heq]
    refine ⟨a.set_kwargs (locate a.ts f).1 (locate a.ts f).2, ?_⟩
    simp only [Actor.drawDispatch, if_neg hskips]
    rw [hphase]
    norm_num
  · intro h1 h3
    have hphase : (locate a.ts f).1 = (i : ℤ) := by
      simp only [locate, hfp]
      have hne2 : ((i : ℕ) : ℤ) ≠ (a.ts.length : ℤ) - 2 := by omega
      simp [hne2]
    refine ⟨a.set_kwargs (locate a.ts f).1 (locate a.ts f).2, ?_⟩
    simp only [Actor.drawDispatch, if_neg hskips]
    rw [hphase]
    rw [if_neg (show ((i : ℕ) : ℤ) ≠ 0 by omega),
      if_neg (show ((i : ℕ) : ℤ) ≠ -1 by omega)]

/-- C3 witness: `ts=[0,1,2,3,4,5]` (`N=6`), interior interval `i=2`
(frames `[2,3)`), frame `5/2`: the act handler is dispatched with phase 2. -/
theorem C3_witness :
    ∃ a', aC3.drawDispatch (5 / 2) false
      = some (a', Dispatch.act 2 (locate aC3.ts (5 / 2)).2) :=
  ((C3_phase_remap aC3 (5 / 2) 2 (by norm_num [aC3, Actor.init])
      (by decide) (by norm_num [aC3, Actor.init])
      (by norm_num [aC3, Actor.init]) (by norm_num [aC3, Actor.init])).2.2)
    (by norm_num) (by norm_num [aC3, Actor.init])

/-- C4 (amended): for every in-range frame the left-to-right scan always
finds an interval containing the frame, even when the strictly-increasing
invariant on `ts` is violated, because the range check `f < ts[-1]`
coincides with the final interval test; the `phase is None` fallback is
therefore unreachable, and `draw` never raises an internal consistency
error (on a hypothetical scan miss it would silently dispatch the leave
stage with `tt=1.0`). -/
theorem C4_scan_total (ts : List ℚ) (f : ℚ)
    (hlen : 4 ≤ ts.length)
    (hlo : ts.getD 0 0 ≤ f) (hhi : f < ts.getD (ts.length - 1) 0) :
    ∃ i, findPhase ts f = some i ∧ i + 1 < ts.length ∧
      ts.getD i 0 ≤ f ∧ f < ts.getD (i + 1) 0 :=
  findPhase_containing ts f (by omega) hlo hhi

/-- C4 counterexample: on the non-increasing sequence `ts=[0,5,3,10]`
(a violated construction invariant) and the in-range frame 4, `draw` does
not fail with any internal consistency error: the scan matches interval 0
and the enter stage is silently dispatched as on any normal frame. -/
theorem C4_counterexample :
    ¬ StrictIncr [(0 : ℚ), 5, 3, 10] ∧
      aC4.drawDispatch 4 false = some (aC4, Dispatch.enter (4 / 5)) := by
  constructor
  · decide
  · norm_num [aC4, Actor.init, Actor.drawDispatch, Actor.skips,
      Actor.set_kwargs, callablesOf, locate, findPhase, scanPairs, linterp]

/-- C4 witness: the amended theorem applied to the same violated-invariant
input: the scan still finds the containing interval 0. -/
theorem C4_witness :
    ∃ i, findPhase [(0 : ℚ), 5, 3, 10] 4 = some i ∧
      i + 1 < ([(0 : ℚ), 5, 3, 10]).length ∧
      ([(0 : ℚ), 5, 3, 10]).getD i 0 ≤ 4 ∧
      (4 : ℚ) < ([(0 : ℚ), 5, 3, 10]).getD (i + 1) 0 :=
  C4_scan_total [(0 : ℚ), 5, 3, 10] 4 (by norm_num) (by norm_num) (by norm_num)

/-- C5 (amended): for every actor whose has-shadow attribute is the static
value `False`, `draw(canvas, frame, shadow=true)` is a complete no-op at
every frame: the actor state is unchanged (no parameter resolution), no
stage handler is dispatched and no drawing primitive is issued.  A
*dynamic* has-shadow provider does not trigger this suppression: the check
`not self.has_shadow` tests the stored attribute, and a callable is
truthy, so the provider's value is never consulted by the check. -/
theorem C5_static_shadow_suppression (a : Actor) (t : ℚ)
    (h : a.has_shadow = PyVal.bool false) :
    a.draw t true = (a, []) ∧ a.drawDispatch t true = none := by
  have hs : a.skips t true := Or.inr (Or.inr ⟨rfl, by rw [h]; rfl⟩)
  have hd : a.drawDispatch t true = none := by
    rw [Actor.drawDispatch, if_pos hs]
  exact ⟨by rw [Actor.draw, hd], hd⟩

/-- C5 counterexample: `aC5` has a dynamic has-shadow provider that always
resolves to `False`, yet `draw` at the in-range frame 0 with `shadow=true`
is not a no-op: it resolves the provider into the kwargs dictionary and
dispatches the enter stage, which issues a `line` primitive call. -/
theorem C5_counterexample :
    (aC5.draw 0 true).2 = [⟨"line", []⟩] ∧
      (aC5.draw 0 true).1.kwargs = [("has_shadow", PyVal.bool false)] := by
  norm_num [aC5, Actor.init, Actor.draw, Actor.drawDispatch, Actor.skips,
    Actor.set_kwargs, Actor.runDispatch, callablesOf, locate, findPhase,
    scanPairs, linterp, default_enter, actLine, dictGet, dictSet, dictRemove,
    PyVal.truthy]

/-- C5 witness: the static-`False` actor `aC5s` at the in-range frame 1:
the shadow-pass draw is a complete no-op. -/
theorem C5_witness :
    aC5s.draw 1 true = (aC5s, []) ∧ aC5s.drawDispatch 1 true = none :=
  C5_static_shadow_suppression aC5s 1 rfl

/-- C6: classification into static and dynamic entries happens once at
construction (`draw` never changes `callables`), and on every dispatching
draw each dynamic entry is evaluated at that call's current
`(phase, localTime)`; the dictionary handed to the stage handler then
carries the freshly resolved value on every dynamic key and the
construction-time value on every static key. -/
theorem C6_parameter_resolution (ts : List ℚ) (hs : PyVal) (kw0 : Dict)
    (e : ℚ → ℚ → Bool → Dict → List Prim)
    (act : ℤ → ℚ → ℚ → Bool → Dict → List Prim)
    (l : ℚ → ℚ → Bool → Dict → List Prim)
    (t : ℚ) (sh : Bool) (a' : Actor) (d : Dispatch)
    (hnodup : (kw0.map Prod.fst).Nodup)
    (hhs : "has_shadow" ∉ kw0.map Prod.fst)
    (halpha : "alpha" ∉ kw0.map Prod.fst)
    (hdisp : (Actor.init ts hs kw0 e act l).drawDispatch t sh = some (a', d)) :
    a'.callables = (Actor.init ts hs kw0 e act l).callables ∧
    (∀ k f, (k, PyVal.fn f) ∈ kw0 →
      dictGet (dictRemove a'.kwargs "alpha") k
        = some (f (locate ts t).1 (locate ts t).2)) ∧
    (∀ k v, (k, v) ∈ kw0 → (∀ g, v ≠ PyVal.fn g) →
      dictGet (dictRemove a'.kwargs "alpha") k = some v) := by
  have hcnd := init_callables_keys_nodup ts hs kw0 e act l hnodup hhs
  simp only [Actor.drawDispatch] at hdisp
  by_cases hsk : (Actor.init ts hs kw0 e act l).skips t sh
  · rw [if_pos hsk] at hdisp; cases hdisp
  · rw [if_neg hsk] at hdisp
    obtain ⟨ha', -⟩ := Prod.mk.injEq .. ▸ Option.some.inj hdisp
    refine ⟨?_, ?_, ?_⟩
    · rw [← ha']; rfl
    · intro k f hmem
      have hka : k ≠ "alpha" := by
        rintro rfl; exact halpha (mem_key_of_mem _ _ _ hmem)
      rw [dictGet_dictRemove_ne _ hka, ← ha']
      exact foldl_set_get_mem _ _ k f _ _ hcnd
        (List.mem_append_right _ ((mem_callablesOf kw0 k f).2 hmem))
    · intro k v hmem hnf
      have hka : k ≠ "alpha" := by
        rintro rfl; exact halpha (mem_key_of_mem _ _ _ hmem)
      have hkc : k ∉ ((Actor.init ts hs kw0 e act l).callables).map Prod.fst := by
        intro hk
        rcases init_callables_key_mem ts hs kw0 e act l k hk with h1 | ⟨g, hg⟩
        · exact hhs (h1 ▸ mem_key_of_mem _ _ _ hmem)
        · exact hnf g (mem_values_unique kw0 k v (PyVal.fn g) hnodup hmem hg)
      rw [dictGet_dictRemove_ne _ hka, ← ha']
      have hfold := foldl_set_get_notMem (locate ts t).1 (locate ts t).2 k
        ((Actor.init ts hs kw0 e act l).callables) kw0 hkc
      exact hfold.trans (dictGet_of_mem kw0 k v hnodup hmem)

/-- C6 witness: `aC6` (dynamic `x`, static `c`) drawn at frame `1/2`
(phase 0, local time `1/2`): the handler dictionary carries
`x = 1/2` (freshly resolved) and `c = 7` (construction-time value). -/
theorem C6_witness :
    dictGet (dictRemove aC6r.kwargs "alpha") "x" = some (PyVal.num (1 / 2)) ∧
    dictGet (dictRemove aC6r.kwargs "alpha") "c" = some (PyVal.num 7) := by
  have hdisp : (Actor.init [0, 1, 2, 3] (.bool true)
      [("x", .fn (fun _ tt => .num tt)), ("c", .num 7)] stageNil actNil
        stageNil).drawDispatch (1 / 2) false
      = some (aC6r, Dispatch.enter (1 / 2)) := by
    norm_num [aC6, aC6r, Actor.init, Actor.drawDispatch, Actor.skips,
      Actor.set_kwargs, callablesOf, locate, findPhase, scanPairs, linterp,
      dictSet, PyVal.truthy, List.filterMap_cons, List.filterMap_nil,
      List.foldl_cons, List.foldl_nil]
  have h := C6_parameter_resolution [0, 1, 2, 3] (.bool true)
    [("x", .fn (fun _ tt => .num tt)), ("c", .num 7)] stageNil actNil stageNil
    (1 / 2) false aC6r (Dispatch.enter (1 / 2)) (by decide) (by decide)
    (by decide) hdisp
  refine ⟨?_, ?_⟩
  · have hx := h.2.1 "x" (fun _ tt => PyVal.num tt) (List.mem_cons_self _ _)
    rw [hx]
    norm_num [locate, findPhase, scanPairs, linterp]
  · exact h.2.2 "c" (PyVal.num 7)
      (List.mem_cons_of_mem _ (List.mem_cons_self _ _))
      (fun g hg => PyVal.noConfusion hg)

/-- C7 counterexample: the resolved parameter set is not ephemeral: after
`aC7.draw` at frame 0 the actor's kwargs dictionary still holds the value
resolved for that call (the dynamic entry `x` has been overwritten in
place in the persistent `self.kwargs`), so the mapping is retained after
the call. -/
theorem C7_counterexample :
    (aC7.draw 0 false).1.kwargs ≠ aC7.kwargs ∧
      dictGet ((aC7.draw 0 false).1.kwargs) "x" = some (PyVal.num 0) := by
  have hk : (aC7.draw 0 false).1.kwargs = [("x", PyVal.num 0)] := by
    norm_num [aC7, Actor.init, Actor.draw, Actor.drawDispatch, Actor.skips,
      Actor.set_kwargs, callablesOf, locate, findPhase, scanPairs, linterp,
      dictSet, PyVal.truthy, List.filterMap_cons, List.filterMap_nil,
      List.foldl_cons, List.foldl_nil]
  constructor
  · rw [hk]
    intro h
    have h2 := congrArg (fun dd => dictGet dd "x") h
    simp only [aC7, Actor.init, dictGet, if_pos rfl] at h2
    exact PyVal.noConfusion (Option.some.inj h2)
  · rw [hk]
    simp [dictGet]

/-- C7 (amended): the resolved parameter set built by a draw call is
written into the actor's persistent kwargs dictionary and survives the
call; however, every dispatching draw re-resolves every dynamic key with
that call's current `(phase, localTime)` before the stage handler runs, so
the handler never observes a resolved value left over from a previous
frame. -/
theorem C7_fresh_resolution (a : Actor) (t : ℚ) (sh : Bool) (a' : Actor)
    (d : Dispatch) (k : String) (f : ℤ → ℚ → PyVal)
    (hnodup : (a.callables.map Prod.fst).Nodup)
    (hmem : (k, f) ∈ a.callables)
    (hdisp : a.drawDispatch t sh = some (a', d)) :
    dictGet a'.kwargs k = some (f (locate a.ts t).1 (locate a.ts t).2) := by
  simp only [Actor.drawDispatch] at hdisp
  by_cases hsk : a.skips t sh
  · rw [if_pos hsk] at hdisp; cases hdisp
  · rw [if_neg hsk] at hdisp
    obtain ⟨ha', -⟩ := Prod.mk.injEq .. ▸ Option.some.inj hdisp
    rw [← ha']
    exact foldl_set_get_mem _ _ k f a.callables a.kwargs hnodup hmem

/-- C7 witness: `aC7s` still carries the stale resolution `x=99` from an
earlier frame; dispatching a draw at frame 1 (phase 1, local time 0)
overwrites it with the fresh value 0 before the handler runs. -/
theorem C7_witness : dictGet aC7r.kwargs "x" = some (PyVal.num 0) := by
  have hdisp : aC7s.drawDispatch 1 false = some (aC7r, Dispatch.act 1 0) := by
    norm_num [aC7s, aC7r, aC7, Actor.init, Actor.drawDispatch, Actor.skips,
      Actor.set_kwargs, callablesOf, locate, findPhase, scanPairs, linterp,
      dictSet, PyVal.truthy, List.filterMap_cons, List.filterMap_nil,
      List.foldl_cons, List.foldl_nil]
  have h := C7_fresh_resolution aC7s 1 false aC7r (Dispatch.act 1 0) "x"
    (fun _ tt => PyVal.num tt)
    (by simp [aC7s, aC7, Actor.init, callablesOf])
    (by simp [aC7s, aC7, Actor.init, callablesOf]) hdisp
  rw [h]
  norm_num [aC7s, aC7, Actor.init, locate, findPhase, scanPairs, linterp]

/-- C10: for every actor (whatever its has-shadow attribute, static or
callable) and every out-of-range frame, `draw` returns before the
parameter-resolution step: the actor state is unchanged (no dynamic
resolver has written anything) and no stage handler is dispatched, on the
shadow pass and on the main pass alike. -/
theorem C10_out_of_range_no_resolution (a : Actor) (t : ℚ) (sh : Bool)
    (h : t < a.ts.headD 0 ∨ a.ts.getLastD 0 ≤ t) :
    a.draw t sh = (a, []) ∧ a.drawDispatch t sh = none := by
  have hs : a.skips t sh := by
    rcases h with h | h
    · exact Or.inl h
    · exact Or.inr (Or.inl h)
  have hd : a.drawDispatch t sh = none := by
    rw [Actor.drawDispatch, if_pos hs]
  refine ⟨?_, hd⟩
  rw [Actor.draw, hd]

/-- C10 witness: `aC10` (callable has-shadow provider and a dynamic
parameter) at the out-of-range frame 99: state unchanged, nothing
dispatched, on the shadow pass. -/
theorem C10_witness :
    aC10.draw 99 true = (aC10, []) ∧ aC10.drawDispatch 99 true = none :=
  C10_out_of_range_no_resolution aC10 99 true
    (by norm_num [aC10, Actor.init, List.getLastD])

theorem set_kwargs_enter (a : Actor) (p : ℤ) (q : ℚ) :
    (a.set_kwargs p q).enter = a.enter := rfl

theorem set_kwargs_act (a : Actor) (p : ℤ) (q : ℚ) :
    (a.set_kwargs p q).act = a.act := rfl

theorem set_kwargs_leave (a : Actor) (p : ℤ) (q : ℚ) :
    (a.set_kwargs p q).leave = a.leave := rfl

/-- C8: for every actor that keeps the default enter and leave handlers
(and has no `alpha` keyword parameter, so the dispatch-time alpha is the
default 1), the enter interval invokes the act handler with `phase=0`,
`localTime=0` and alpha scaled to `alpha*localTime = localTime` (fade-in),
and the leave interval invokes the act handler with `phase=-1`,
`localTime=1` and alpha scaled to `alpha*(1-localTime) = 1-localTime`
(fade-out): drawing inside the enter interval at local time `t` issues
exactly the primitive calls of invoking the act handler directly with
`alpha = t` on the same resolved parameters. -/
theorem C8_default_stage_composition (a : Actor) (t : ℚ) (sh : Bool)
    (hE : a.enter = default_enter a.act) (hL : a.leave = default_leave a.act)
    (hlen : 4 ≤ a.ts.length) (hmono : StrictIncr a.ts)
    (halpha : dictGet a.kwargs "alpha" = none)
    (hacal : "alpha" ∉ a.callables.map Prod.fst)
    (hsh : sh = true → a.has_shadow.truthy = true) :
    (a.ts.getD 0 0 ≤ t → t < a.ts.getD 1 0 →
      (a.draw t sh).2 =
        a.act 0 0 (linterp (a.ts.getD 0 0) 0 (a.ts.getD 1 0) 1 t) sh
          ((a.set_kwargs 0
            (linterp (a.ts.getD 0 0) 0 (a.ts.getD 1 0) 1 t)).kwargs)) ∧
    (a.ts.getD (a.ts.length - 2) 0 ≤ t → t < a.ts.getD (a.ts.length - 1) 0 →
      (a.draw t sh).2 =
        a.act (-1) 1
          (1 - linterp (a.ts.getD (a.ts.length - 2) 0) 0
            (a.ts.getD (a.ts.length - 1) 0) 1 t) sh
          ((a.set_kwargs (-1)
            (linterp (a.ts.getD (a.ts.length - 2) 0) 0
              (a.ts.getD (a.ts.length - 1) 0) 1 t)).kwargs)) := by
  have hne : a.ts ≠ [] := by
    intro h; rw [h] at hlen; simp at hlen
  have hga : ∀ (p : ℤ) (q : ℚ),
      dictGet ((a.set_kwargs p q).kwargs) "alpha" = none := fun p q =>
    (foldl_set_get_notMem p q "alpha" a.callables a.kwargs hacal).trans halpha
  constructor
  · intro hlo hhi
    have hfp : findPhase a.ts t = some 0 :=
      findPhase_eq_of_mem a.ts t 0 hmono (by omega) hlo (by simpa using hhi)
    have hloc1 : (locate a.ts t).1 = 0 := by
      simp only [locate, hfp]
      have hne2 : ¬ ((0 : ℤ) = (a.ts.length : ℤ) - 2) := by omega
      simp [hne2]
    have hloc2 : (locate a.ts t).2
        = linterp (a.ts.getD 0 0) 0 (a.ts.getD 1 0) 1 t := by
      simp [locate, hfp]
    have hskips : ¬ a.skips t sh := by
      rw [Actor.skips, headD_eq_getD _ hne, getLastD_eq_getD _ _ hne]
      rintro (h | h | h)
      · linarith
      · have : a.ts.getD 1 0 ≤ a.ts.getD (a.ts.length - 1) 0 :=
          strictIncr_getD_le hmono 1 (a.ts.length - 1) (by omega) (by omega)
        linarith
      · rw [hsh h.1] at h
        simp at h
    have hdd : a.drawDispatch t sh
        = some (a.set_kwargs (locate a.ts t).1 (locate a.ts t).2,
            Dispatch.enter (locate a.ts t).2) := by
      simp only [Actor.drawDispatch, if_neg hskips]
      rw [hloc1]
      simp
    rw [Actor.draw, hdd]
    simp only [Actor.runDispatch, hga, dictRemove_of_get_none _ _ (hga _ _),
      set_kwargs_enter, set_kwargs_act, set_kwargs_leave, hE, default_enter]
    rw [one_mul, hloc1, hloc2]
  · intro hlo hhi
    have hfp : findPhase a.ts t = some (a.ts.length - 2) :=
      findPhase_eq_of_mem a.ts t (a.ts.length - 2) hmono (by omega)
        hlo (by
          have heq : a.ts.length - 2 + 1 = a.ts.length - 1 := by omega
          rw [heq]; exact hhi)
    have hloc1 : (locate a.ts t).1 = -1 := by
      simp only [locate, hfp]
      have heq : ((a.ts.length - 2 : ℕ) : ℤ) = (a.ts.length : ℤ) - 2 := by
        omega
      simp [heq]
    have hloc2 : (locate a.ts t).2
        = linterp (a.ts.getD (a.ts.length - 2) 0) 0
            (a.ts.getD (a.ts.length - 1) 0) 1 t := by
      simp only [locate, hfp]
      have heq : a.ts.length - 2 + 1 = a.ts.length - 1 := by omega
      rw [heq]
    have hskips : ¬ a.skips t sh := by
      rw [Actor.skips, headD_eq_getD _ hne, getLastD_eq_getD _ _ hne]
      rintro (h | h | h)
      · have : a.ts.getD 0 0 ≤ a.ts.getD (a.ts.length - 2) 0 :=
          strictIncr_getD_le hmono 0 (a.ts.length - 2) (by omega) (by omega)
        linarith
      · linarith
      · rw [hsh h.1] at h
        simp at h
    have hdd : a.drawDispatch t sh
        = some (a.set_kwargs (locate a.ts t).1 (locate a.ts t).2,
            Dispatch.leave (locate a.ts t).2) := by
      simp only [Actor.drawDispatch, if_neg hskips]
      rw [hloc1]
      simp
    rw [Actor.draw, hdd]
    simp only [Actor.runDispatch, hga, dictRemove_of_get_none _ _ (hga _ _),
      set_kwargs_enter, set_kwargs_act, set_kwargs_leave, hL, default_leave]
    rw [one_mul, hloc1, hloc2]

/-- C8 witness: `aC8` (default enter/leave over `actMark`) drawn at frame
`1/2` of `ts=[0,1,2,3]` issues exactly the calls of its act handler at
`phase=0, localTime=0, alpha = 1/2`. -/
theorem C8_witness :
    (aC8.draw (1 / 2) false).2
      = aC8.act 0 0
          (linterp ((aC8.ts).getD 0 0) 0 ((aC8.ts).getD 1 0) 1 (1 / 2)) false
          ((aC8.set_kwargs 0
            (linterp ((aC8.ts).getD 0 0) 0 ((aC8.ts).getD 1 0) 1
              (1 / 2))).kwargs) :=
  (C8_default_stage_composition aC8 (1 / 2) false rfl rfl
      (by norm_num [aC8, Actor.init]) (by decide) rfl
      (by simp [aC8, Actor.init, callablesOf])
      (fun h => Bool.noConfusion h)).1
    (by norm_num [aC8, Actor.init]) (by norm_num [aC8, Actor.init])

theorem performFrames_trace (pat : String) (sh : Bool) :
    ∀ (n : ℕ) (actors : List Actor) (f0 : ℤ),
      PerformTrace pat sh actors f0 n (performFrames actors f0 n pat sh).2
  | 0, actors, f0 => .nil actors f0
  | n + 1, actors, f0 => by
      have ih := performFrames_trace pat sh n
        (performFrame actors f0 pat sh).1 (f0 + 1)
      have hshape : (performFrames actors f0 (n + 1) pat sh).2
          = Event.clear ::
              ((shadowPass actors (f0 : ℚ) sh).2.map Event.prim ++
                (drawPass (shadowPass actors (f0 : ℚ) sh).1 (f0 : ℚ)
                  false).2.map Event.prim ++
                [Event.update, Event.savepng pat f0] ++
                (performFrames (performFrame actors f0 pat sh).1 (f0 + 1) n
                  pat sh).2) := by
        simp [performFrames, performFrame, List.append_assoc]
      rw [hshape]
      exact .cons actors f0 n _ ih

/-- C9: for every call `perform(canvas, actors, f0, f1, pattern, shadow)`
with `f0 <= f1`, the driver iterates exactly the frames `f0..f1-1` in
increasing order, and each frame's canvas output is: `clear`; the
shadow-pass primitives of every actor (when the shadow flag is set); then
the main-pass primitives of every actor; then `update`; then exactly one
raster export named by the pattern with the frame number -- so exactly
`f1-f0` files are exported and within each frame every shadow-pass
primitive precedes every main-pass primitive. -/
theorem C9_perform_stream (actors : List Actor) (f0 f1 : ℤ) (pat : String)
    (sh : Bool) (_hle : f0 ≤ f1) :
    PerformTrace pat sh actors f0 (f1 - f0).toNat
      (perform actors f0 f1 pat sh).2 :=
  performFrames_trace pat sh (f1 - f0).toNat actors f0

/-- C9 witness: two frames over an empty actor list: the stream is
`clear, update, savepng 0, clear, update, savepng 1`. -/
theorem C9_witness :
    (0 : ℤ) ≤ 2 ∧
      PerformTrace "out" true [] 0 ((2 : ℤ) - 0).toNat
        (perform [] 0 2 "out" true).2 :=
  ⟨by norm_num, C9_perform_stream [] 0 2 "out" true (by norm_num)⟩

end Picturebox
